import Mathlib

/-!
Shallow embedding of `clockify_gaps.py`.

The core of the program is `find_gaps`, which computes the free slots of a
working day: it converts the day's busy entries to minute-of-day spans, adds
the configured lunch break clipped to the working window, sorts, merges
overlapping or touching spans with a left-to-right sweep, and emits the
complementary intervals inside the window, dropping non-positive ones and
rendering the result as HH:MM strings.

The module-level configuration constants (`WORK_START`, `WORK_END`,
`LUNCH_START`, `LUNCH_END`) are passed to the embedded functions as explicit
parameters; the values the program configures are kept as definitions with the
same names.  All minute arithmetic is over `Int`; Python `//` and `%` on a
positive divisor are `Int.fdiv` and `Int.emod`.
-/

namespace Clockify

/-- A minute-of-day span `(start, end)`, closed-open. -/
abbrev Span := Int × Int

/-- Configured working-window start, `WORK_START = 9 * 60` in the source. -/
def WORK_START : Int := 9 * 60

/-- Configured working-window end, `WORK_END = 18 * 60` in the source. -/
def WORK_END : Int := 18 * 60

/-- Configured lunch start, `LUNCH_START = 12 * 60`; the source guards on it
being `None`, so the configuration type is `Option Int`. -/
def LUNCH_START : Option Int := some (12 * 60)

/-- Configured lunch end, `LUNCH_END = 13 * 60`. -/
def LUNCH_END : Option Int := some (13 * 60)

/-- Filler description constant `ENTRY_DESC` from the source. -/
def ENTRY_DESC : String := "[Dev Work, Reviewing code]"

/-- Source `to_minutes`: minute-of-day of a localized wall-clock time given as
an (hour, minute) pair, `dt.hour * 60 + dt.minute`. -/
def to_minutes (hour minute : Int) : Int := hour * 60 + minute

/-- Source `pad`: Python `f"{n:02d}"` — a leading zero for single-digit
non-negative numbers, plain decimal rendering otherwise. -/
def pad (n : Int) : String := if 0 ≤ n ∧ n < 10 then "0" ++ toString n else toString n

/-- Source `to_hhmm`: render a minute count as `HH:MM` using Python floor
division and remainder by 60. -/
def to_hhmm (m : Int) : String := pad (Int.fdiv m 60) ++ ":" ++ pad (Int.emod m 60)

/-- Lines 55-60 of `find_gaps`: if both lunch bounds are configured, clip the
lunch interval to the window and append it to the span list when the clipped
interval is non-empty. -/
def with_lunch (lunch_start lunch_end : Option Int) (spans : List Span)
    (start_m end_m : Int) : List Span :=
  match lunch_start, lunch_end with
  | some ls, some le =>
    let lunch_s := max start_m ls
    let lunch_e := min end_m le
    if lunch_s < lunch_e then spans ++ [(lunch_s, lunch_e)] else spans
  | _, _ => spans

/-- Python tuple order on spans: by start minute, ties by end minute. -/
def spanLE (p q : Span) : Prop := p.1 < q.1 ∨ (p.1 = q.1 ∧ p.2 ≤ q.2)

instance : DecidableRel spanLE := fun p q =>
  inferInstanceAs (Decidable (p.1 < q.1 ∨ (p.1 = q.1 ∧ p.2 ≤ q.2)))

instance : IsTotal Span spanLE := by
  constructor
  intro p q
  rcases lt_trichotomy p.1 q.1 with h | h | h
  · exact Or.inl (Or.inl h)
  · rcases le_total p.2 q.2 with h2 | h2
    · exact Or.inl (Or.inr ⟨h, h2⟩)
    · exact Or.inr (Or.inr ⟨h.symm, h2⟩)
  · exact Or.inr (Or.inl h)

instance : IsTrans Span spanLE := by
  constructor
  intro p q u hpq hqu
  rcases hpq with h1 | ⟨e1, l1⟩
  · rcases hqu with h2 | ⟨e2, l2⟩
    · exact Or.inl (h1.trans h2)
    · exact Or.inl (e2 ▸ h1)
  · rcases hqu with h2 | ⟨e2, l2⟩
    · exact Or.inl (e1 ▸ h2)
    · exact Or.inr ⟨e1.trans e2, l1.trans l2⟩

instance : IsAntisymm Span spanLE := by
  constructor
  intro p q hpq hqp
  rcases hpq with h1 | ⟨e1, l1⟩
  · rcases hqp with h2 | ⟨e2, l2⟩
    · exact absurd (h1.trans h2) (lt_irrefl _)
    · exact absurd h1 (e2 ▸ lt_irrefl _)
  · rcases hqp with h2 | ⟨e2, l2⟩
    · exact absurd h2 (e1 ▸ lt_irrefl _)
    · exact Prod.ext e1 (le_antisymm l1 l2)

/-- Line 62, `spans.sort()`: Python sorts tuples lexicographically; the sort is
stable, and elements with equal keys are identical tuples here. -/
def sortSpans (l : List Span) : List Span := List.insertionSort spanLE l

/-- Lines 64-68 of `find_gaps`, running state: `(s, e)` is the interval at the
back of `merged` (the one Python mutates in place); a span starting after `e`
closes it and starts a new one, any other span folds into it, extending the
end to the larger of the two ends. -/
def mergeFrom (s e : Int) : List Span → List Span
  | [] => [(s, e)]
  | (s2, e2) :: rest =>
    if s2 > e then (s, e) :: mergeFrom s2 e2 rest else mergeFrom s (max e e2) rest

/-- Lines 62-68 of `find_gaps`: the merge loop over the sorted span list;
an empty list yields an empty `merged`. -/
def merge_spans : List Span → List Span
  | [] => []
  | (s, e) :: rest => mergeFrom s e rest

/-- Lines 70-78 of `find_gaps`: walk the merged list with a cursor starting at
`start_m`; before a merged span starting past the cursor, emit
`(cur, min s end_m)`; advance the cursor to `max cur e`; stop as soon as the
cursor reaches `end_m`, and otherwise emit the trailing gap `(cur, end_m)`. -/
def sweep (end_m : Int) : List Span → Int → List Span
  | [], cur => if cur < end_m then [(cur, end_m)] else []
  | (s, e) :: rest, cur =>
    (if cur < s then [(cur, min s end_m)] else []) ++
      (if end_m ≤ max cur e then [] else sweep end_m rest (max cur e))

/-- The merged busy list `merged` computed by `find_gaps`: the busy spans plus
the clipped lunch, sorted and swept into maximal intervals. -/
def merged_busy (lunch_start lunch_end : Option Int) (entries : List Span)
    (start_m end_m : Int) : List Span :=
  merge_spans (sortSpans (with_lunch lunch_start lunch_end entries start_m end_m))

/-- Lines 52-79 of `find_gaps` up to the final rendering: the emitted gaps with
non-positive ones dropped (`if b > a`), still as minute pairs. -/
def find_gaps_minutes (lunch_start lunch_end : Option Int) (entries : List Span)
    (start_m end_m : Int) : List Span :=
  (sweep end_m (merged_busy lunch_start lunch_end entries start_m end_m) start_m).filter
    (fun g => g.1 < g.2)

/-- Source `find_gaps`: the kept gaps rendered as HH:MM string pairs. -/
def find_gaps (lunch_start lunch_end : Option Int) (entries : List Span)
    (start_m end_m : Int) : List (String × String) :=
  (find_gaps_minutes lunch_start lunch_end entries start_m end_m).map
    (fun g => (to_hhmm g.1, to_hhmm g.2))

/-- Membership of a minute in a closed-open span. -/
def InSpan (m : Int) (p : Span) : Prop := p.1 ≤ m ∧ m < p.2

instance (m : Int) (p : Span) : Decidable (InSpan m p) :=
  inferInstanceAs (Decidable (p.1 ≤ m ∧ m < p.2))

/-- A minute is covered by a span list when some listed span contains it. -/
def covers (l : List Span) (m : Int) : Prop := ∃ p ∈ l, InSpan m p

theorem covers_cons {p : Span} {l : List Span} {m : Int} :
    covers (p :: l) m ↔ InSpan m p ∨ covers l m := by
  simp [covers]

theorem spanLE_start {p q : Span} (h : spanLE p q) : p.1 ≤ q.1 :=
  h.elim le_of_lt (fun h2 => le_of_eq h2.1)

theorem sortSpans_perm (l : List Span) : List.Perm (sortSpans l) l :=
  List.perm_insertionSort spanLE l

theorem sortSpans_sorted (l : List Span) : List.Sorted spanLE (sortSpans l) :=
  List.sorted_insertionSort spanLE l

theorem sortSpans_starts (l : List Span) :
    (sortSpans l).Pairwise (fun p q => p.1 ≤ q.1) :=
  List.Pairwise.imp (fun h => spanLE_start h) (sortSpans_sorted l)

theorem mergeFrom_start_le (l : List Span) (s e : Int)
    (h1 : ∀ p ∈ l, s ≤ p.1) (h2 : l.Pairwise (fun p q => p.1 ≤ q.1)) :
    ∀ q ∈ mergeFrom s e l, s ≤ q.1 := by
  induction l generalizing s e with
  | nil =>
    intro q hq
    simp only [mergeFrom, List.mem_singleton] at hq
    simp [hq]
  | cons p rest ih =>
    obtain ⟨s2, e2⟩ := p
    have hs2 : s ≤ s2 := h1 (s2, e2) (List.mem_cons_self _ _)
    rw [List.pairwise_cons] at h2
    intro q hq
    simp only [mergeFrom] at hq
    split at hq
    · rcases List.mem_cons.mp hq with hq | hq
      · simp [hq]
      · exact hs2.trans (ih s2 e2 (fun p hp => h2.1 p hp) h2.2 q hq)
    · exact ih s (max e e2) (fun p hp => h1 p (List.mem_cons_of_mem _ hp)) h2.2 q hq

theorem mergeFrom_wf (l : List Span) (s e : Int) (hse : s ≤ e)
    (hl : ∀ p ∈ l, p.1 ≤ p.2) : ∀ q ∈ mergeFrom s e l, q.1 ≤ q.2 := by
  induction l generalizing s e with
  | nil =>
    intro q hq
    simp only [mergeFrom, List.mem_singleton] at hq
    simp [hq, hse]
  | cons p rest ih =>
    obtain ⟨s2, e2⟩ := p
    intro q hq
    simp only [mergeFrom] at hq
    split at hq
    · rcases List.mem_cons.mp hq with hq | hq
      · simp [hq, hse]
      · exact ih s2 e2 (hl (s2, e2) (List.mem_cons_self _ _))
          (fun p hp => hl p (List.mem_cons_of_mem _ hp)) q hq
    · exact ih s (max e e2) (hse.trans (le_max_left _ _))
        (fun p hp => hl p (List.mem_cons_of_mem _ hp)) q hq

theorem mergeFrom_starts_pairwise (l : List Span) (s e : Int)
    (h1 : ∀ p ∈ l, s ≤ p.1) (h2 : l.Pairwise (fun p q => p.1 ≤ q.1)) :
    (mergeFrom s e l).Pairwise (fun p q => p.1 ≤ q.1) := by
  induction l generalizing s e with
  | nil => simp [mergeFrom]
  | cons p rest ih =>
    obtain ⟨s2, e2⟩ := p
    have hs2 : s ≤ s2 := h1 (s2, e2) (List.mem_cons_self _ _)
    rw [List.pairwise_cons] at h2
    simp only [mergeFrom]
    split
    · rw [List.pairwise_cons]
      refine ⟨fun q hq => ?_, ih s2 e2 (fun p hp => h2.1 p hp) h2.2⟩
      exact hs2.trans (mergeFrom_start_le rest s2 e2 (fun p hp => h2.1 p hp) h2.2 q hq)
    · exact ih s (max e e2) (fun p hp => h1 p (List.mem_cons_of_mem _ hp)) h2.2

theorem inSpan_merge {s e s2 e2 m : Int} (hs2 : s ≤ s2) (hs2e : s2 ≤ e) :
    InSpan m (s, max e e2) ↔ InSpan m (s, e) ∨ InSpan m (s2, e2) := by
  unfold InSpan
  constructor
  · rintro ⟨h1, h2⟩
    rcases lt_or_le m e with h3 | h3
    · exact Or.inl ⟨h1, h3⟩
    · rcases lt_max_iff.mp h2 with h4 | h4
      · exact absurd h4 (not_lt.mpr h3)
      · exact Or.inr ⟨hs2e.trans h3, h4⟩
  · rintro (⟨h1, h2⟩ | ⟨h1, h2⟩)
    · exact ⟨h1, h2.trans_le (le_max_left _ _)⟩
    · exact ⟨hs2.trans h1, h2.trans_le (le_max_right _ _)⟩

theorem mergeFrom_covers (l : List Span) (s e : Int)
    (h1 : ∀ p ∈ l, s ≤ p.1) (h2 : l.Pairwise (fun p q => p.1 ≤ q.1)) (m : Int) :
    covers (mergeFrom s e l) m ↔ InSpan m (s, e) ∨ covers l m := by
  induction l generalizing s e with
  | nil =>
    simp [mergeFrom, covers]
  | cons p rest ih =>
    obtain ⟨s2, e2⟩ := p
    have hs2 : s ≤ s2 := h1 (s2, e2) (List.mem_cons_self _ _)
    rw [List.pairwise_cons] at h2
    simp only [mergeFrom]
    split
    · rw [covers_cons, ih s2 e2 (fun p hp => h2.1 p hp) h2.2, covers_cons]
    · rw [ih s (max e e2) (fun p hp => h1 p (List.mem_cons_of_mem _ hp)) h2.2,
        inSpan_merge hs2 (not_lt.mp (by assumption)), covers_cons, or_assoc]

theorem merge_spans_starts_pairwise (l : List Span)
    (h : l.Pairwise (fun p q => p.1 ≤ q.1)) :
    (merge_spans l).Pairwise (fun p q => p.1 ≤ q.1) := by
  cases l with
  | nil => simp [merge_spans]
  | cons p rest =>
    obtain ⟨s, e⟩ := p
    rw [List.pairwise_cons] at h
    exact mergeFrom_starts_pairwise rest s e h.1 h.2

theorem merge_spans_wf (l : List Span) (hl : ∀ p ∈ l, p.1 ≤ p.2) :
    ∀ q ∈ merge_spans l, q.1 ≤ q.2 := by
  cases l with
  | nil => simp [merge_spans]
  | cons p rest =>
    obtain ⟨s, e⟩ := p
    exact mergeFrom_wf rest s e (hl (s, e) (List.mem_cons_self _ _))
      (fun p hp => hl p (List.mem_cons_of_mem _ hp))

theorem merge_spans_covers (l : List Span)
    (h : l.Pairwise (fun p q => p.1 ≤ q.1)) (m : Int) :
    covers (merge_spans l) m ↔ covers l m := by
  cases l with
  | nil => simp [merge_spans]
  | cons p rest =>
    obtain ⟨s, e⟩ := p
    rw [List.pairwise_cons] at h
    rw [merge_spans, mergeFrom_covers rest s e h.1 h.2, covers_cons]

theorem covers_perm {l l2 : List Span} (h : List.Perm l l2) (m : Int) :
    covers l m ↔ covers l2 m := by
  unfold covers
  constructor
  · rintro ⟨p, hp, hin⟩
    exact ⟨p, h.mem_iff.mp hp, hin⟩
  · rintro ⟨p, hp, hin⟩
    exact ⟨p, h.mem_iff.mpr hp, hin⟩

theorem sweep_ge (end_m : Int) (l : List Span) (cur : Int) :
    ∀ g ∈ sweep end_m l cur, cur ≤ g.1 ∧ g.2 ≤ end_m := by
  induction l generalizing cur with
  | nil =>
    intro g hg
    simp only [sweep] at hg
    split at hg
    · simp only [List.mem_singleton] at hg
      simp [hg]
    · simp at hg
  | cons p rest ih =>
    obtain ⟨s, e⟩ := p
    intro g hg
    simp only [sweep] at hg
    rcases List.mem_append.mp hg with hg | hg
    · split at hg
      · simp only [List.mem_singleton] at hg
        refine ⟨le_of_eq (by simp [hg]), ?_⟩
        simp [hg]
      · simp at hg
    · split at hg
      · simp at hg
      · have := ih (max cur e) g hg
        exact ⟨(le_max_left cur e).trans this.1, this.2⟩

theorem sweep_cover (end_m : Int) (l : List Span) (cur m : Int)
    (hcm : cur ≤ m) (hm : m < end_m) :
    covers (sweep end_m l cur) m ∨ covers l m := by
  induction l generalizing cur with
  | nil =>
    refine Or.inl ⟨(cur, end_m), ?_, hcm, hm⟩
    simp only [sweep]
    rw [if_pos (hcm.trans_lt hm)]
    exact List.mem_singleton_self _
  | cons p rest ih =>
    obtain ⟨s, e⟩ := p
    rcases lt_or_le m s with hms | hms
    · refine Or.inl ⟨(cur, min s end_m), ?_, hcm, lt_min hms hm⟩
      simp only [sweep]
      refine List.mem_append_left _ ?_
      rw [if_pos (hcm.trans_lt hms)]
      exact List.mem_singleton_self _
    · rcases lt_or_le m e with hme | hme
      · exact Or.inr ⟨(s, e), List.mem_cons_self _ _, hms, hme⟩
      · have hcur1 : max cur e ≤ m := max_le hcm hme
        rcases ih (max cur e) hcur1 with h | h
        · obtain ⟨g, hg, hin⟩ := h
          refine Or.inl ⟨g, ?_, hin⟩
          simp only [sweep]
          refine List.mem_append_right _ ?_
          rw [if_neg (not_le.mpr (hcur1.trans_lt hm))]
          exact hg
        · obtain ⟨q, hq, hin⟩ := h
          exact Or.inr ⟨q, List.mem_cons_of_mem _ hq, hin⟩

theorem sweep_pairwise (end_m : Int) (l : List Span) (cur : Int)
    (hl : ∀ p ∈ l, p.1 ≤ p.2) :
    (sweep end_m l cur).Pairwise (fun g g2 => g.2 ≤ g2.1) := by
  induction l generalizing cur with
  | nil =>
    simp only [sweep]
    split
    · exact List.pairwise_singleton _ _
    · exact List.Pairwise.nil
  | cons p rest ih =>
    obtain ⟨s, e⟩ := p
    simp only [sweep]
    rw [List.pairwise_append]
    refine ⟨?_, ?_, ?_⟩
    · split
      · exact List.pairwise_singleton _ _
      · exact List.Pairwise.nil
    · split
      · exact List.Pairwise.nil
      · exact ih (max cur e) (fun p hp => hl p (List.mem_cons_of_mem _ hp))
    · intro g hg g2 hg2
      split at hg
      · simp only [List.mem_singleton] at hg
        split at hg2
        · simp at hg2
        · have h1 := (sweep_ge end_m rest (max cur e) g2 hg2).1
          have hse : s ≤ e := hl (s, e) (List.mem_cons_self _ _)
          subst hg
          simp only
          exact le_trans (min_le_left _ _) (le_trans hse ((le_max_right cur e).trans h1))
      · simp at hg

theorem sweep_disjoint (end_m : Int) (l : List Span) (cur : Int)
    (h2 : l.Pairwise (fun p q => p.1 ≤ q.1)) :
    ∀ g ∈ sweep end_m l cur, ∀ p ∈ l, ∀ m : Int, InSpan m g → InSpan m p → False := by
  induction l generalizing cur with
  | nil =>
    intro g _ p hp
    simp at hp
  | cons q rest ih =>
    obtain ⟨s, e⟩ := q
    rw [List.pairwise_cons] at h2
    intro g hg p hp m hing hinp
    simp only [sweep] at hg
    rcases List.mem_append.mp hg with hg | hg
    · split at hg
      · simp only [List.mem_singleton] at hg
        subst hg
        obtain ⟨hg1, hg2⟩ := hing
        simp only at hg1 hg2
        rcases List.mem_cons.mp hp with hp | hp
        · subst hp
          exact absurd hinp.1 (not_le.mpr ((lt_min_iff.mp hg2).1))
        · have hsp : s ≤ p.1 := h2.1 p hp
          exact absurd ((lt_min_iff.mp hg2).1) (not_lt.mpr (hsp.trans hinp.1))
      · simp at hg
    · split at hg
      · simp at hg
      · rcases List.mem_cons.mp hp with hp | hp
        · subst hp
          have h1 := (sweep_ge end_m rest (max cur e) g hg).1
          exact absurd hinp.2 (not_lt.mpr (((le_max_right cur e).trans h1).trans hing.1))
        · exact ih (max cur e) h2.2 g hg p hp m hing hinp

theorem with_lunch_wf (ls le : Option Int) (entries : List Span) (s_m e_m : Int)
    (hwf : ∀ p ∈ entries, p.1 ≤ p.2) :
    ∀ p ∈ with_lunch ls le entries s_m e_m, p.1 ≤ p.2 := by
  cases ls with
  | none => exact hwf
  | some ls0 =>
    cases le with
    | none => exact hwf
    | some le0 =>
      simp only [with_lunch]
      split
      · intro p hp
        rcases List.mem_append.mp hp with hp | hp
        · exact hwf p hp
        · simp only [List.mem_singleton] at hp
          subst hp
          exact le_of_lt (by assumption)
      · exact hwf

theorem with_lunch_perm (ls le : Option Int) (l1 l2 : List Span) (s_m e_m : Int)
    (hperm : List.Perm l1 l2) :
    List.Perm (with_lunch ls le l1 s_m e_m) (with_lunch ls le l2 s_m e_m) := by
  cases ls with
  | none => exact hperm
  | some ls0 =>
    cases le with
    | none => exact hperm
    | some le0 =>
      simp only [with_lunch]
      split
      · exact hperm.append_right _
      · exact hperm

theorem with_lunch_clip_mem (ls0 le0 : Int) (entries : List Span) (s_m e_m : Int)
    (hne : max s_m ls0 < min e_m le0) :
    (max s_m ls0, min e_m le0) ∈ with_lunch (some ls0) (some le0) entries s_m e_m := by
  simp only [with_lunch]
  rw [if_pos hne]
  exact List.mem_append_right _ (List.mem_singleton_self _)

theorem merged_busy_starts_pairwise (ls le : Option Int) (entries : List Span)
    (s_m e_m : Int) :
    (merged_busy ls le entries s_m e_m).Pairwise (fun p q => p.1 ≤ q.1) :=
  merge_spans_starts_pairwise _ (sortSpans_starts _)

theorem merged_busy_wf (ls le : Option Int) (entries : List Span) (s_m e_m : Int)
    (hwf : ∀ p ∈ entries, p.1 ≤ p.2) :
    ∀ q ∈ merged_busy ls le entries s_m e_m, q.1 ≤ q.2 := by
  refine merge_spans_wf _ (fun p hp => ?_)
  exact with_lunch_wf ls le entries s_m e_m hwf p ((sortSpans_perm _).mem_iff.mp hp)

theorem merged_busy_covers (ls le : Option Int) (entries : List Span)
    (s_m e_m : Int) (m : Int) :
    covers (merged_busy ls le entries s_m e_m) m ↔
      covers (with_lunch ls le entries s_m e_m) m := by
  rw [merged_busy, merge_spans_covers _ (sortSpans_starts _),
    covers_perm (sortSpans_perm _)]

theorem covers_filter_pos {l : List Span} {m : Int} (h : covers l m) :
    covers (l.filter (fun g => g.1 < g.2)) m := by
  obtain ⟨p, hp, hin⟩ := h
  refine ⟨p, List.mem_filter.mpr ⟨hp, ?_⟩, hin⟩
  exact decide_eq_true (hin.1.trans_lt hin.2)

theorem mem_find_gaps_minutes {ls le : Option Int} {entries : List Span}
    {s_m e_m : Int} {g : Span}
    (hg : g ∈ find_gaps_minutes ls le entries s_m e_m) :
    g ∈ sweep e_m (merged_busy ls le entries s_m e_m) s_m ∧ g.1 < g.2 := by
  have := List.mem_filter.mp hg
  exact ⟨this.1, of_decide_eq_true this.2⟩

theorem sortSpans_with_lunch_eq (ls le : Option Int) (l1 l2 : List Span)
    (s_m e_m : Int) (hperm : List.Perm l1 l2) :
    sortSpans (with_lunch ls le l1 s_m e_m) = sortSpans (with_lunch ls le l2 s_m e_m) :=
  List.eq_of_perm_of_sorted
    ((sortSpans_perm _).trans
      ((with_lunch_perm ls le l1 l2 s_m e_m hperm).trans (sortSpans_perm _).symm))
    (sortSpans_sorted _) (sortSpans_sorted _)

/-- C1: for every well-formed set of busy spans for one day (each with
start ≤ end), the gaps returned by `find_gaps`, together with the merged busy
set (busy spans plus the break clipped to the window), exactly cover the
working window: no minute of `[start_m, end_m)` is in neither set, and no
returned gap overlaps any merged busy span. -/
theorem find_gaps_cover_exact (ls le : Option Int) (entries : List Span)
    (start_m end_m : Int) (_hwf : ∀ p ∈ entries, p.1 ≤ p.2) :
    (∀ m : Int, start_m ≤ m → m < end_m →
      covers (find_gaps_minutes ls le entries start_m end_m) m ∨
      covers (merged_busy ls le entries start_m end_m) m) ∧
    ∀ g ∈ find_gaps_minutes ls le entries start_m end_m,
      ∀ p ∈ merged_busy ls le entries start_m end_m,
        ∀ m : Int, ¬(InSpan m g ∧ InSpan m p) := by
  constructor
  · intro m h1 h2
    rcases sweep_cover end_m (merged_busy ls le entries start_m end_m) start_m m h1 h2
      with h | h
    · exact Or.inl (covers_filter_pos h)
    · exact Or.inr h
  · intro g hg p hp m hm
    exact sweep_disjoint end_m _ start_m
      (merged_busy_starts_pairwise ls le entries start_m end_m)
      g (mem_find_gaps_minutes hg).1 p hp m hm.1 hm.2

theorem find_gaps_cover_exact_witness :
    (∀ p ∈ [((540 : Int), (600 : Int)), ((660 : Int), (720 : Int))], p.1 ≤ p.2) ∧
    ((∀ m : Int, 540 ≤ m → m < 1080 →
      covers (find_gaps_minutes LUNCH_START LUNCH_END [(540, 600), (660, 720)] 540 1080) m ∨
      covers (merged_busy LUNCH_START LUNCH_END [(540, 600), (660, 720)] 540 1080) m) ∧
    ∀ g ∈ find_gaps_minutes LUNCH_START LUNCH_END [(540, 600), (660, 720)] 540 1080,
      ∀ p ∈ merged_busy LUNCH_START LUNCH_END [(540, 600), (660, 720)] 540 1080,
        ∀ m : Int, ¬(InSpan m g ∧ InSpan m p)) :=
  ⟨by decide,
    find_gaps_cover_exact LUNCH_START LUNCH_END [(540, 600), (660, 720)] 540 1080 (by decide)⟩

/-- C2: for every well-formed input list of busy spans (in any order, possibly
overlapping), the returned gap list is pairwise disjoint, sorted strictly
ascending by start minute, each gap lies inside `[start_m, end_m]`, and each
gap has strictly positive length. -/
theorem find_gaps_pairwise_sorted (ls le : Option Int) (entries : List Span)
    (start_m end_m : Int) (hwf : ∀ p ∈ entries, p.1 ≤ p.2) :
    (find_gaps_minutes ls le entries start_m end_m).Pairwise
      (fun g g2 => ∀ m : Int, ¬(InSpan m g ∧ InSpan m g2)) ∧
    (find_gaps_minutes ls le entries start_m end_m).Pairwise
      (fun g g2 => g.1 < g2.1) ∧
    ∀ g ∈ find_gaps_minutes ls le entries start_m end_m,
      start_m ≤ g.1 ∧ g.1 < g.2 ∧ g.2 ≤ end_m := by
  have hmwf := merged_busy_wf ls le entries start_m end_m hwf
  have hpw : (sweep end_m (merged_busy ls le entries start_m end_m) start_m).Pairwise
      (fun g g2 => g.2 ≤ g2.1) := sweep_pairwise _ _ _ hmwf
  have hpwf : (find_gaps_minutes ls le entries start_m end_m).Pairwise
      (fun g g2 => g.2 ≤ g2.1) := hpw.filter _
  refine ⟨?_, ?_, ?_⟩
  · exact hpwf.imp (fun h m hm => absurd (hm.1.2.trans_le h) (not_lt.mpr hm.2.1))
  · exact hpwf.imp_of_mem (fun ha _ h => lt_of_lt_of_le (mem_find_gaps_minutes ha).2 h)
  · intro g hg
    obtain ⟨hsw, hlt⟩ := mem_find_gaps_minutes hg
    have h := sweep_ge end_m _ start_m g hsw
    exact ⟨h.1, hlt, h.2⟩

theorem find_gaps_pairwise_sorted_witness :
    (∀ p ∈ [((660 : Int), (720 : Int)), ((540 : Int), (610 : Int)),
        ((600 : Int), (700 : Int))], p.1 ≤ p.2) ∧
    ((find_gaps_minutes LUNCH_START LUNCH_END [(660, 720), (540, 610), (600, 700)]
        540 1080).Pairwise
      (fun g g2 => ∀ m : Int, ¬(InSpan m g ∧ InSpan m g2)) ∧
    (find_gaps_minutes LUNCH_START LUNCH_END [(660, 720), (540, 610), (600, 700)]
        540 1080).Pairwise (fun g g2 => g.1 < g2.1) ∧
    ∀ g ∈ find_gaps_minutes LUNCH_START LUNCH_END [(660, 720), (540, 610), (600, 700)]
        540 1080,
      540 ≤ g.1 ∧ g.1 < g.2 ∧ g.2 ≤ 1080) :=
  ⟨by decide,
    find_gaps_pairwise_sorted LUNCH_START LUNCH_END [(660, 720), (540, 610), (600, 700)]
      540 1080 (by decide)⟩

/-- C3: for every input, if the break interval clipped to the window is
non-empty, no returned gap overlaps the clipped break interval. -/
theorem find_gaps_break_disjoint (bs be : Int) (entries : List Span)
    (start_m end_m : Int) (hne : max start_m bs < min end_m be) :
    ∀ g ∈ find_gaps_minutes (some bs) (some be) entries start_m end_m,
      ∀ m : Int, ¬(InSpan m g ∧ max start_m bs ≤ m ∧ m < min end_m be) := by
  intro g hg m hm
  have hcov : covers (with_lunch (some bs) (some be) entries start_m end_m) m :=
    ⟨(max start_m bs, min end_m be),
      with_lunch_clip_mem bs be entries start_m end_m hne, hm.2.1, hm.2.2⟩
  obtain ⟨p, hp, hinp⟩ :=
    (merged_busy_covers (some bs) (some be) entries start_m end_m m).mpr hcov
  exact sweep_disjoint end_m _ start_m
    (merged_busy_starts_pairwise (some bs) (some be) entries start_m end_m)
    g (mem_find_gaps_minutes hg).1 p hp m hm.1 hinp

theorem find_gaps_break_disjoint_witness :
    max (540 : Int) 720 < min 1080 780 ∧
    ∀ g ∈ find_gaps_minutes (some 720) (some 780) [(550, 560)] 540 1080,
      ∀ m : Int, ¬(InSpan m g ∧ max (540 : Int) 720 ≤ m ∧ m < min 1080 780) :=
  ⟨by decide, find_gaps_break_disjoint 720 780 [(550, 560)] 540 1080 (by decide)⟩

/-- C4: `find_gaps` is deterministic and insensitive to the order of the busy
spans: permuted input lists produce identical output, and recomputation on the
same list produces identical output. -/
theorem find_gaps_perm_invariant (ls le : Option Int) (l1 l2 : List Span)
    (start_m end_m : Int) (hperm : List.Perm l1 l2) :
    find_gaps ls le l1 start_m end_m = find_gaps ls le l2 start_m end_m ∧
    find_gaps ls le l1 start_m end_m = find_gaps ls le l1 start_m end_m := by
  refine ⟨?_, rfl⟩
  unfold find_gaps find_gaps_minutes merged_busy
  rw [sortSpans_with_lunch_eq ls le l1 l2 start_m end_m hperm]

theorem find_gaps_perm_invariant_witness :
    List.Perm [((540 : Int), (600 : Int)), ((660 : Int), (720 : Int))]
      [(660, 720), (540, 600)] ∧
    (find_gaps LUNCH_START LUNCH_END [(540, 600), (660, 720)] 540 1080 =
      find_gaps LUNCH_START LUNCH_END [(660, 720), (540, 600)] 540 1080 ∧
    find_gaps LUNCH_START LUNCH_END [(540, 600), (660, 720)] 540 1080 =
      find_gaps LUNCH_START LUNCH_END [(540, 600), (660, 720)] 540 1080) :=
  ⟨List.Perm.swap (660, 720) (540, 600) [],
    find_gaps_perm_invariant LUNCH_START LUNCH_END [(540, 600), (660, 720)]
      [(660, 720), (540, 600)] 540 1080 (List.Perm.swap (660, 720) (540, 600) [])⟩

/-- C5: busy spans (540,600) and (660,720) with window 09:00-18:00 and no
break configured yield exactly the gaps 10:00-11:00 and 12:00-18:00. -/
theorem find_gaps_scenario_no_break :
    find_gaps none none [(540, 600), (660, 720)] 540 1080 =
      [("10:00", "11:00"), ("12:00", "18:00")] := by decide

/-- C6: spans touching exactly at a boundary merge into one interval (a span
whose start equals the running merged end folds into it), the concrete pair
(540,600), (600,660) merges to (540,660), and no zero-length gap is emitted
between them. -/
theorem merge_touching_spans :
    (∀ s e f : Int, mergeFrom s e [(e, f)] = [(s, max e f)]) ∧
    merge_spans (sortSpans [(540, 600), (600, 660)]) = [(540, 660)] ∧
    find_gaps_minutes none none [(540, 600), (600, 660)] 540 1080 = [(660, 1080)] := by
  refine ⟨fun s e f => ?_, by decide, by decide⟩
  simp [mergeFrom, lt_irrefl]

/-- C10: `find_gaps` is total over arbitrary input with no well-formedness
precondition: for every list of integer spans (including malformed ones with
end ≤ start) and all integer window bounds, every returned gap (a, b)
satisfies start_m ≤ a < b ≤ end_m. -/
theorem find_gaps_total_bounds (ls le : Option Int) (entries : List Span)
    (start_m end_m : Int) :
    ∀ g ∈ find_gaps_minutes ls le entries start_m end_m,
      start_m ≤ g.1 ∧ g.1 < g.2 ∧ g.2 ≤ end_m := by
  intro g hg
  obtain ⟨hsw, hlt⟩ := mem_find_gaps_minutes hg
  have h := sweep_ge end_m _ start_m g hsw
  exact ⟨h.1, hlt, h.2⟩

theorem find_gaps_total_bounds_witness :
    ((540 : Int), (600 : Int)) ∈
      find_gaps_minutes LUNCH_START LUNCH_END [(600, 300)] 540 1080 ∧
    ((540 : Int) ≤ 540 ∧ (540 : Int) < 600 ∧ (600 : Int) ≤ 1080) :=
  ⟨by decide,
    find_gaps_total_bounds LUNCH_START LUNCH_END [(600, 300)] 540 1080 (540, 600)
      (by decide)⟩

/-- A raw time-entry record as returned by the interval source, reduced to the
fields `preview_week` reads: the local calendar day and absolute start instant
of its time interval, and the attribution metadata. `projectNestedId` stands
for the nested `project.id` fallback, `taskNestedId` for `task.id`. -/
structure RawRecord where
  day : Int
  start : Int
  projectId : Option String
  projectNestedId : Option String
  taskId : Option String
  taskNestedId : Option String
  billable : Option Bool
deriving DecidableEq

/-- Python `a or b` on optional strings, as used on lines 200-201: `None` and
the empty string are falsy and fall through to `b`. -/
def pyOrStr (a b : Option String) : Option String :=
  match a with
  | some s => if s = "" then b else some s
  | none => b

/-- Line 197: `next(t for t in raw_data if ...date() == day)` — the first
record in fetched list order whose local start date is the given day. -/
def first_raw_for_day (raw : List RawRecord) (d : Int) : Option RawRecord :=
  raw.find? (fun t => t.day == d)

/-- One filler entry as built by lines 204-210: the day, the gap bounds as
HH:MM strings, the fixed description, and the copied attribution. -/
structure FillerPost where
  day : Int
  gap_s : String
  gap_e : String
  desc : String
  projectId : Option String
  taskId : Option String
  billable : Bool
deriving DecidableEq

/-- Lines 195-210 for one day: skip the day when no fetched record has that
date, otherwise copy project id (with the nested-id fallback), task id
(likewise) and billable flag (default true) from that record onto one filler
per gap of the day. -/
def fillers_for_day (raw : List RawRecord) (d : Int)
    (gaps : List (String × String)) : List FillerPost :=
  match first_raw_for_day raw d with
  | none => []
  | some t =>
    gaps.map (fun g =>
      ⟨d, g.1, g.2, ENTRY_DESC, pyOrStr t.projectId t.projectNestedId,
        pyOrStr t.taskId t.taskNestedId, t.billable.getD true⟩)

/-- Python `.strip().lower()` applied to the operator's confirmation input on
line 189, modelled character-wise: whitespace is dropped from both ends and
every character is lowercased. -/
def normalize_confirm (s : String) : String :=
  ⟨(((s.data.dropWhile Char.isWhitespace).reverse.dropWhile
      Char.isWhitespace).reverse).map Char.toLower⟩

/-- Lines 189-210: the confirmation gate (`input(...).strip().lower()` is
compared with "y"; anything else returns with no writes) followed by the
filler loop over the day keys in ascending order, skipping days whose entry
list is empty. -/
def preview_posts (by_day : List (Int × List Span)) (raw : List RawRecord)
    (confirm : String) : List FillerPost :=
  if normalize_confirm confirm ≠ "y" then []
  else
    (List.insertionSort (fun a b => a.1 ≤ b.1) by_day).flatMap (fun dd =>
      if dd.2 = [] then []
      else fillers_for_day raw dd.1
        (find_gaps LUNCH_START LUNCH_END dd.2 WORK_START WORK_END))

/-- Line 131 of `post_time_entry`: the submission is reported as failed (a
warning is printed) exactly when the response status code is not in
`(200, 201)`; the function returns the response instead of raising. -/
def post_failed (status : Nat) : Bool := decide (status ≠ 200 ∧ status ≠ 201)

/-- Lines 204-210: one `post_time_entry` call per gap of the day, issued
regardless of the outcomes of the earlier calls; each element records the
gap, the sink's status code for it, and whether a failure warning was
printed. -/
def submit_day (gaps : List (String × String)) (resp : String × String → Nat) :
    List ((String × String) × Nat × Bool) :=
  gaps.map (fun g => (g, resp g, post_failed (resp g)))

/-- C7 (amended): every filler entry created for a date carries the project
identifier, task identifier, and billable flag copied from the first record
of that date in the fetched list order — which is the first chronological
record only when the fetched list is chronologically sorted. -/
theorem fillers_attribution_first_listed (raw : List RawRecord) (d : Int)
    (gaps : List (String × String)) (f : FillerPost)
    (hf : f ∈ fillers_for_day raw d gaps) :
    ∃ t, first_raw_for_day raw d = some t ∧
      f.projectId = pyOrStr t.projectId t.projectNestedId ∧
      f.taskId = pyOrStr t.taskId t.taskNestedId ∧
      f.billable = t.billable.getD true ∧ f.day = d ∧ f.desc = ENTRY_DESC := by
  unfold fillers_for_day at hf
  cases h : first_raw_for_day raw d with
  | none =>
    rw [h] at hf
    simp at hf
  | some t =>
    rw [h] at hf
    obtain ⟨g, _, hfe⟩ := List.mem_map.mp hf
    refine ⟨t, rfl, ?_, ?_, ?_, ?_, ?_⟩ <;> rw [← hfe]

theorem fillers_attribution_first_listed_witness :
    (FillerPost.mk 0 "10:00" "11:00" ENTRY_DESC (some "A") none true ∈
      fillers_for_day [RawRecord.mk 0 540 (some "A") none none none none]
        0 [("10:00", "11:00")]) ∧
    ∃ t, first_raw_for_day [RawRecord.mk 0 540 (some "A") none none none none] 0 =
        some t ∧
      (FillerPost.mk 0 "10:00" "11:00" ENTRY_DESC (some "A") none true).projectId =
        pyOrStr t.projectId t.projectNestedId ∧
      (FillerPost.mk 0 "10:00" "11:00" ENTRY_DESC (some "A") none true).taskId =
        pyOrStr t.taskId t.taskNestedId ∧
      (FillerPost.mk 0 "10:00" "11:00" ENTRY_DESC (some "A") none true).billable =
        t.billable.getD true ∧
      (FillerPost.mk 0 "10:00" "11:00" ENTRY_DESC (some "A") none true).day = 0 ∧
      (FillerPost.mk 0 "10:00" "11:00" ENTRY_DESC (some "A") none true).desc =
        ENTRY_DESC :=
  ⟨by decide,
    fillers_attribution_first_listed
      [RawRecord.mk 0 540 (some "A") none none none none] 0 [("10:00", "11:00")]
      (FillerPost.mk 0 "10:00" "11:00" ENTRY_DESC (some "A") none true) (by decide)⟩

/-- C7 counterexample: with two records of the same date fetched out of
chronological order, the filler copies attribution from the first-listed
record (project "A", start instant 100) even though the record with the
earliest start instant of that date (project "B", start instant 50) is listed
second, so the claim's "first chronological busy record" fails. -/
theorem fillers_attribution_not_earliest :
    (RawRecord.mk 0 50 (some "B") none none none (some true)).day = 0 ∧
    (RawRecord.mk 0 100 (some "A") none none none (some true)).day = 0 ∧
    (RawRecord.mk 0 50 (some "B") none none none (some true)).start <
      (RawRecord.mk 0 100 (some "A") none none none (some true)).start ∧
    (fillers_for_day
        [RawRecord.mk 0 100 (some "A") none none none (some true),
         RawRecord.mk 0 50 (some "B") none none none (some true)]
        0 [("10:00", "11:00")]).map FillerPost.projectId = [some "A"] ∧
    pyOrStr (some "B") none ≠ (some "A" : Option String) := by decide

/-- C8 (amended): one submission is attempted for every gap regardless of the
statuses the sink returned for earlier gaps, and a submission is reported as
a failure exactly when its status code is neither 200 nor 201 — so every
non-2xx status is reported, but 2xx statuses other than 200 and 201 are
reported as failures too. -/
theorem submissions_continue_after_failure :
    (∀ (gaps : List (String × String)) (resp : String × String → Nat),
      (submit_day gaps resp).map Prod.fst = gaps) ∧
    (∀ status : Nat, post_failed status = true ↔ ¬(status = 200 ∨ status = 201)) := by
  constructor
  · intro gaps resp
    rw [submit_day, List.map_map]
    exact List.map_id gaps
  · intro status
    simp [post_failed, not_or]

/-- C8 counterexample: status 202 is a 2xx response but `post_time_entry`
reports it as a failed submission (its check is `not in (200, 201)`). -/
theorem post_warns_on_202 :
    post_failed 202 = true ∧ 200 ≤ 202 ∧ 202 < 300 := by decide

/-- C9 (amended): if the operator's confirmation input is not equal to "y"
after stripping whitespace and lowercasing, no filler post is ever produced:
the run ends without any write to the sink. -/
theorem declined_confirmation_no_posts (by_day : List (Int × List Span))
    (raw : List RawRecord) (confirm : String)
    (h : normalize_confirm confirm ≠ "y") :
    preview_posts by_day raw confirm = [] := by
  unfold preview_posts
  rw [if_pos h]

theorem declined_confirmation_no_posts_witness :
    normalize_confirm "n" ≠ "y" ∧
    preview_posts [(0, [(540, 600)])]
      [RawRecord.mk 0 540 (some "A") none none none (some true)] "n" = [] :=
  ⟨by decide,
    declined_confirmation_no_posts [(0, [(540, 600)])]
      [RawRecord.mk 0 540 (some "A") none none none (some true)] "n" (by decide)⟩

/-- C9 counterexample: the raw operator input "Y" is a string other than "y",
yet the run still performs writes, because the code strips and lowercases the
input before comparing it with "y". -/
theorem uppercase_confirm_still_writes :
    ("Y" : String) ≠ "y" ∧
    (preview_posts [(0, [(540, 600)])]
      [RawRecord.mk 0 540 (some "A") none none none (some true)] "Y").length = 2 := by
  decide

end Clockify
